import Mathlib

/-!
A shallow embedding of `src/data_anonymizer.py` (class `DataAnonymizer`).

The tabular store (`pandas.DataFrame`) is modelled as an ordered list of named
columns, each an ordered list of cell values aligned by row index.  Cell values
are either missing (`NaN`), strings, or numbers; numbers are modelled as
rationals.  Randomness (the Laplace sampler `np.random.laplace` and the faker /
`random.choice` draws of the synthetic strategy) is modelled by explicit
sampler functions passed as parameters, consumed as a tape: one draw per
generated value, exactly where the source draws.
-/

/-- A cell value of the data frame: missing (`NaN`), a string, or a number. -/
inductive Value where
  | null : Value
  | str (s : String) : Value
  | num (q : ℚ) : Value
  deriving DecidableEq

/-- Python's `str(x)` on a cell value (`str(nan) = "nan"`). -/
def strRepr : Value → String
  | .null => "nan"
  | .str s => s
  | .num q => toString q

/-- A data frame: ordered named columns, each an ordered list of cells. -/
abbrev DF := List (String × List Value)

/-- The column labels, in order (`df.columns`). -/
def colNames (d : DF) : List String := d.map Prod.fst

/-- `col in df.columns`. -/
def hasCol : DF → String → Bool
  | [], _ => false
  | (n, _) :: d, c => n == c || hasCol d c

/-- `df[col]`: the cells of the first column labelled `c` (empty if absent). -/
def getCol : DF → String → List Value
  | [], _ => []
  | (n, col) :: d, c => if n == c then col else getCol d c

/-- Whole-column assignment `df[col] = newcol` (replaces the column in place). -/
def setCol : DF → String → List Value → DF
  | [], _, _ => []
  | (n, col) :: d, c, newcol =>
    if n == c then (n, newcol) :: setCol d c newcol else (n, col) :: setCol d c newcol

/-- `len(df)`: the row count, read off the first column. -/
def nrows : DF → Nat
  | [] => 0
  | (_, col) :: _ => col.length

/-- Well-formedness of a frame: every column holds exactly `n` cells. -/
def WF (d : DF) (n : Nat) : Prop := ∀ p ∈ d, p.2.length = n

/-- The cell of column `c` at row label `i` (`df.loc[i, c]`). -/
def cellAt (d : DF) (c : String) (i : Nat) : Value := ((getCol d c)[i]?).getD .null

/-- The grouping key of row `i`: the tuple of its values in the columns `qis`
(`NaN` kept as a distinct key, as with `groupby(..., dropna=False)`). -/
def keyOf (d : DF) (qis : List String) (i : Nat) : List Value :=
  qis.map (fun c => cellAt d c i)

/-- The ascending row labels whose key equals `key`. -/
def groupIdx (d : DF) (qis : List String) (key : List Value) : List Nat :=
  (List.range (nrows d)).filter (fun i => decide (keyOf d qis i = key))

/-- The distinct grouping keys occurring in the frame. -/
def groupKeys (d : DF) (qis : List String) : List (List Value) :=
  ((List.range (nrows d)).map (keyOf d qis)).dedup

/-- `df.groupby(qis, dropna=False).groups`: each distinct key paired with the
ascending row labels of its equivalence class. -/
def groupBy (d : DF) (qis : List String) : List (List Value × List Nat) :=
  (groupKeys d qis).map (fun key => (key, groupIdx d qis key))

/-- Python's `str.lower()` (ASCII case folding, character-wise). -/
def toLowerStr (s : String) : String := String.mk (s.toList.map Char.toLower)

/-- Does `hay` start with `needle`? (character-wise). -/
def startsWithL : List Char → List Char → Bool
  | _, [] => true
  | [], _ :: _ => false
  | c :: cs, n :: ns => c == n && startsWithL cs ns

/-- Python's substring test `needle in hay` on character lists. -/
def containsSubL : List Char → List Char → Bool
  | [], ns => ns.isEmpty
  | c :: rest, ns => startsWithL (c :: rest) ns || containsSubL rest ns

/-- Python's `sub in hay` on strings. -/
def containsSub (hay sub : String) : Bool := containsSubL hay.toList sub.toList

/-- The four kinds of fake data the synthetic strategy can generate:
`fake.zipcode()`, `random.choice(["Male", "Female"])`, `fake.job()`,
`fake.word()`. -/
inductive FakeCat where
  | zipcode : FakeCat
  | gender : FakeCat
  | job : FakeCat
  | word : FakeCat
  deriving DecidableEq

/-- The column-name heuristic of the synthetic strategy: first match among
`"zip"`, `"gender"`, `"occupation"`/`"job"` as substrings of the lowercased
column name, else the generic fake word. -/
def syntheticCategory (c : String) : FakeCat :=
  if containsSub (toLowerStr c) "zip" then .zipcode
  else if containsSub (toLowerStr c) "gender" then .gender
  else if containsSub (toLowerStr c) "occupation" || containsSub (toLowerStr c) "job" then .job
  else .word

/-- `'*' * len(str(x))`. -/
def suppressVal (s : String) : String := String.mk (List.replicate s.toList.length '*')

/-- `str(x)[:2] + '*' * (len(str(x)) - 2)` (Python's negative repeat count
yields the empty string, as truncated subtraction does here). -/
def generalizeVal (s : String) : String :=
  String.mk (s.toList.take 2 ++ List.replicate (s.toList.length - 2) '*')

/-- The value written into one rewritten cell, per strategy.  For `synthetic`
the cell value comes from the fake-data tape at position `draw`, independent of
the old value. -/
def rewriteVal (strategy : String) (cat : FakeCat) (fake : FakeCat → Nat → String)
    (draw : Nat) (v : Value) : Value :=
  if strategy == "suppression" then .str (suppressVal (strRepr v))
  else if strategy == "generalization" then .str (generalizeVal (strRepr v))
  else .str (fake cat draw)

/-- The position of the first occurrence of `i` in a list of row labels. -/
def posOf (i : Nat) : List Nat → Option Nat
  | [] => none
  | x :: xs => if x = i then some 0 else (posOf i xs).map (· + 1)

/-- `df.loc[indices, col] = values`: starting at row label `i0`, rewrite the
cells whose label occurs in `indices` (at list position `j`) to `f j oldvalue`;
all other cells are kept.  This models both the label-aligned Series assignment
of the suppression/generalization branches and the positional list assignment
of the synthetic branch. -/
def assignAtFrom (indices : List Nat) (f : Nat → Value → Value) :
    Nat → List Value → List Value
  | _, [] => []
  | i, v :: vs =>
    (match posOf i indices with
     | some j => f j v
     | none => v) :: assignAtFrom indices f (i + 1) vs

/-- `df.loc[indices, col] = ...` over a whole column (labels start at 0). -/
def assignAt (col : List Value) (indices : List Nat) (f : Nat → Value → Value) :
    List Value :=
  assignAtFrom indices f 0 col

/-- One inner-loop iteration of `apply_k_anonymity`: rewrite, in column `c`,
the cells of the rows listed in `indices`, per `strategy`.  The second
component is the position on the fake-data tape; the synthetic branch consumes
one draw per rewritten row. -/
def rewriteStep (strategy : String) (fake : FakeCat → Nat → String)
    (indices : List Nat) (p : DF × Nat) (c : String) : DF × Nat :=
  (setCol p.1 c (assignAt (getCol p.1 c) indices
      (fun j v => rewriteVal strategy (syntheticCategory c) fake (p.2 + j) v)),
   if strategy == "synthetic" then p.2 + indices.length else p.2)

/-- The inner loop of `apply_k_anonymity` over the quasi-identifier columns,
for one small group with row labels `indices`. -/
def rewriteGroup (strategy : String) (fake : FakeCat → Nat → String)
    (indices : List Nat) (qis : List String) (p : DF × Nat) : DF × Nat :=
  qis.foldl (rewriteStep strategy fake indices) p

/-- The outer loop of `apply_k_anonymity` over the small groups. -/
def kanonFold (strategy : String) (fake : FakeCat → Nat → String)
    (qis : List String) (gs : List (List Value × List Nat)) (p : DF × Nat) :
    DF × Nat :=
  gs.foldl (fun p g => rewriteGroup strategy fake g.2 qis p) p

/-- Is `strategy` one of the three recognized k-anonymity strategies? -/
def validStrategy (strategy : String) : Bool :=
  strategy == "suppression" || strategy == "generalization" || strategy == "synthetic"

/-- `DataAnonymizer.apply_k_anonymity(quasi_identifiers, k, strategy)`:
reject unknown strategies before touching the frame; group once by the
quasi-identifier columns; rewrite every cell of every quasi-identifier column
in every group of size `< k`. -/
def apply_k_anonymity (d : DF) (qis : List String) (k : Nat) (strategy : String)
    (fake : FakeCat → Nat → String) : Except String DF :=
  if validStrategy strategy = false then
    .error "Invalid strategy. Choose from: suppression, generalization, synthetic"
  else
    let groups := groupBy d qis
    let small := groups.filter (fun g => decide (g.2.length < k))
    .ok (kanonFold strategy fake qis small (d, 0)).1

/-- `round(x, 2)`: round to two decimal places. -/
def round2 (q : ℚ) : ℚ := Rat.divInt (q * 100 + 1 / 2).floor 100

/-- The numeric reading of a cell (the DP transform is applied to numeric
columns only). -/
def Value.toNum : Value → ℚ
  | .num q => q
  | _ => 0

/-- The numeric contents of column `c`. -/
def numCol (d : DF) (c : String) : List ℚ := (getCol d c).map Value.toNum

/-- `column.max()`. -/
def listMax : List ℚ → ℚ
  | [] => 0
  | x :: xs => xs.foldl max x

/-- `column.min()`. -/
def listMin : List ℚ → ℚ
  | [] => 0
  | x :: xs => xs.foldl min x

/-- `df[col] + noise` then `round(2)`, one independent noise draw per row:
row `i` receives `lap1 i`. -/
def noisyFrom (lap1 : Nat → ℚ) : Nat → List ℚ → List ℚ
  | _, [] => []
  | i, v :: vs => round2 (v + lap1 i) :: noisyFrom lap1 (i + 1) vs

/-- The perturbed column: each value plus its own noise draw, rounded. -/
def dpCol (col : List ℚ) (lap1 : Nat → ℚ) : List ℚ := noisyFrom lap1 0 col

/-- `DataAnonymizer.apply_differential_privacy(numerical_columns, epsilon)`.
`lap t scale i` is the Laplace sampler: the `i`-th entry of the `t`-th batch
`np.random.laplace(loc=0, scale=scale, size=len(df))`; each present column
consumes one batch.  The second component collects the names of requested
columns that were absent and so skipped with a warning. -/
def apply_differential_privacy (d : DF) (cols : List String) (eps : ℚ)
    (lap : Nat → ℚ → Nat → ℚ) (t : Nat) : DF × List String :=
  match cols with
  | [] => (d, [])
  | c :: rest =>
    if hasCol d c then
      let col := numCol d c
      let scale := (listMax col - listMin col) / eps
      apply_differential_privacy
        (setCol d c ((dpCol col (lap t scale)).map Value.num)) rest eps lap (t + 1)
    else
      let r := apply_differential_privacy d rest eps lap t
      (r.1, c :: r.2)

/-- `Series.nunique()`: the number of distinct non-null values. -/
def nunique (col : List Value) : Nat :=
  ((col.filter (fun v => decide (v ≠ Value.null))).dedup).length

/-- `DataAnonymizer.get_anonymization_report()`: one entry per column of the
original frame that is still present in the current frame, in original column
order: the column name, its original and current distinct counts, and the
privacy gain (original minus current). -/
def get_anonymization_report (orig cur : DF) : List (String × Nat × Nat × Int) :=
  (colNames orig).filterMap (fun c =>
    if hasCol cur c then
      some (c, nunique (getCol orig c), nunique (getCol cur c),
        (nunique (getCol orig c) : Int) - (nunique (getCol cur c) : Int))
    else none)

/-- The `DataAnonymizer` state: the working frame `df` and the frozen copy
`original_df` taken at load time. -/
structure Anonymizer where
  df : DF
  original_df : DF

/-- `DataAnonymizer.load_data`: set the working frame and snapshot a copy. -/
def load_data (d : DF) : Anonymizer := { df := d, original_df := d }

/-- One transform invocation on the anonymizer state, with its random tape. -/
inductive Op where
  | dp (cols : List String) (eps : ℚ) (lap : Nat → ℚ → Nat → ℚ) : Op
  | kanon (qis : List String) (k : Nat) (strategy : String)
      (fake : FakeCat → Nat → String) : Op

/-- Run one transform.  A raised `ValueError` (invalid strategy) propagates,
leaving the state as it was. -/
def runOp (a : Anonymizer) : Op → Anonymizer
  | .dp cols eps lap =>
    { a with df := (apply_differential_privacy a.df cols eps lap 0).1 }
  | .kanon qis k strategy fake =>
    match apply_k_anonymity a.df qis k strategy fake with
    | .ok d2 => { a with df := d2 }
    | .error _ => a

/-- Run a sequence of transform invocations. -/
def runOps (a : Anonymizer) (ops : List Op) : Anonymizer := ops.foldl runOp a

theorem hasCol_iff_mem_colNames (d : DF) (c : String) :
    hasCol d c = true ↔ c ∈ colNames d := by
  induction d with
  | nil => simp [hasCol, colNames]
  | cons p d ih =>
    obtain ⟨n, col⟩ := p
    simp only [hasCol, colNames, List.map_cons, Bool.or_eq_true, beq_iff_eq,
      List.mem_cons, ih, colNames]
    constructor
    · rintro (h | h)
      · exact Or.inl h.symm
      · exact Or.inr h
    · rintro (h | h)
      · exact Or.inl h.symm
      · exact Or.inr h

theorem getCol_setCol_self (d : DF) (c : String) (col : List Value)
    (h : hasCol d c = true) : getCol (setCol d c col) c = col := by
  induction d with
  | nil => simp [hasCol] at h
  | cons p d ih =>
    obtain ⟨n, pc⟩ := p
    by_cases hn : n = c
    · subst hn; simp [setCol, getCol]
    · simp [hasCol, beq_iff_eq, hn] at h
      simp [setCol, getCol, beq_iff_eq, hn, ih h]

theorem getCol_setCol_ne (d : DF) (c c' : String) (col : List Value)
    (h : c ≠ c') : getCol (setCol d c' col) c = getCol d c := by
  induction d with
  | nil => simp [setCol]
  | cons p d ih =>
    obtain ⟨n, pc⟩ := p
    by_cases hn : n = c'
    · subst hn
      have hcc : ¬n = c := fun hcn => h (hcn.symm)
      simp [setCol, getCol, beq_iff_eq, hcc, ih]
    · simp [setCol, getCol, beq_iff_eq, hn, ih]

theorem setCol_of_hasCol_false (d : DF) (c : String) (col : List Value)
    (h : hasCol d c = false) : setCol d c col = d := by
  induction d with
  | nil => simp [setCol]
  | cons p d ih =>
    obtain ⟨n, pc⟩ := p
    simp [hasCol, Bool.or_eq_false_iff, beq_eq_false_iff_ne] at h
    simp [setCol, beq_iff_eq, h.1, ih h.2]

theorem colNames_setCol (d : DF) (c : String) (col : List Value) :
    colNames (setCol d c col) = colNames d := by
  induction d with
  | nil => rfl
  | cons p d ih =>
    obtain ⟨n, pc⟩ := p
    by_cases hn : n = c <;> simp [setCol, colNames, beq_iff_eq, hn] <;>
      simpa [colNames] using ih

theorem hasCol_setCol (d : DF) (c c' : String) (col : List Value) :
    hasCol (setCol d c' col) c = hasCol d c := by
  rw [Bool.eq_iff_iff, hasCol_iff_mem_colNames, hasCol_iff_mem_colNames,
    colNames_setCol]

theorem WF_setCol (d : DF) (c : String) (col : List Value) (n : Nat)
    (h : WF d n) (hcol : col.length = n) : WF (setCol d c col) n := by
  induction d with
  | nil => intro p hp; simp [setCol] at hp
  | cons p d ih =>
    obtain ⟨m, pc⟩ := p
    have h2 : WF d n := fun q hq => h q (by simp [hq])
    intro q hq
    by_cases hm : m = c
    · rw [setCol, if_pos (by simp [hm])] at hq
      rcases List.mem_cons.mp hq with hq | hq
      · subst hq; exact hcol
      · exact ih h2 q hq
    · rw [setCol, if_neg (by simp [hm])] at hq
      rcases List.mem_cons.mp hq with hq | hq
      · subst hq; exact h (m, pc) (by simp)
      · exact ih h2 q hq

theorem getCol_length (d : DF) (c : String) (n : Nat)
    (h : WF d n) (hc : hasCol d c = true) : (getCol d c).length = n := by
  induction d with
  | nil => simp [hasCol] at hc
  | cons p d ih =>
    obtain ⟨m, pc⟩ := p
    by_cases hm : m = c
    · subst hm
      simpa [getCol] using h (m, pc) (by simp)
    · simp [hasCol, beq_iff_eq, hm] at hc
      have h2 : WF d n := fun q hq => h q (by simp [hq])
      simpa [getCol, beq_iff_eq, hm] using ih h2 hc

theorem mem_groupIdx (d : DF) (qis : List String) (key : List Value) (i : Nat) :
    i ∈ groupIdx d qis key ↔ i < nrows d ∧ keyOf d qis i = key := by
  simp [groupIdx, List.mem_filter, List.mem_range]

theorem groupIdx_pairwise_lt (d : DF) (qis : List String) (key : List Value) :
    List.Pairwise (· < ·) (groupIdx d qis key) :=
  (List.pairwise_lt_range (nrows d)).filter _

theorem groupIdx_nodup (d : DF) (qis : List String) (key : List Value) :
    (groupIdx d qis key).Nodup :=
  (groupIdx_pairwise_lt d qis key).imp Nat.ne_of_lt

theorem mem_groupBy (d : DF) (qis : List String) (g : List Value × List Nat) :
    g ∈ groupBy d qis ↔ g.1 ∈ groupKeys d qis ∧ g.2 = groupIdx d qis g.1 := by
  constructor
  · intro hg
    obtain ⟨key, hkey, hpair⟩ := List.mem_map.mp hg
    obtain ⟨h1, h2⟩ := Prod.mk.injEq .. ▸ hpair
    subst h1
    exact ⟨hkey, h2.symm⟩
  · intro ⟨h1, h2⟩
    exact List.mem_map.mpr ⟨g.1, h1, by rw [← h2]⟩

theorem keyOf_mem_groupKeys (d : DF) (qis : List String) (i : Nat)
    (hi : i < nrows d) : keyOf d qis i ∈ groupKeys d qis :=
  List.mem_dedup.mpr (List.mem_map.mpr ⟨i, List.mem_range.mpr hi, rfl⟩)

theorem groupBy_fst_nodup (d : DF) (qis : List String) :
    ((groupBy d qis).map Prod.fst).Nodup := by
  have : (groupBy d qis).map Prod.fst = groupKeys d qis := by
    simp [groupBy, List.map_map, Function.comp_def]
  rw [this]
  exact List.nodup_dedup _

theorem groupBy_eq_of_mem_both (d : DF) (qis : List String)
    (g g' : List Value × List Nat) (hg : g ∈ groupBy d qis)
    (hg' : g' ∈ groupBy d qis) (i : Nat) (hi : i ∈ g.2) (hi' : i ∈ g'.2) :
    g = g' := by
  obtain ⟨hk, he⟩ := (mem_groupBy d qis g).mp hg
  obtain ⟨hk', he'⟩ := (mem_groupBy d qis g').mp hg'
  have h1 := (mem_groupIdx d qis g.1 i).mp (he ▸ hi)
  have h2 := (mem_groupIdx d qis g'.1 i).mp (he' ▸ hi')
  have hfst : g.1 = g'.1 := h1.2 ▸ h2.2 ▸ rfl
  have hsnd : g.2 = g'.2 := by rw [he, he', hfst]
  exact Prod.ext hfst hsnd

theorem groupBy_nodup (d : DF) (qis : List String) : (groupBy d qis).Nodup :=
  (groupBy_fst_nodup d qis).of_map Prod.fst

theorem posOf_eq_none_of_not_mem (i : Nat) (l : List Nat) (h : i ∉ l) :
    posOf i l = none := by
  induction l with
  | nil => rfl
  | cons x xs ih =>
    have hx : ¬x = i := fun hxi => h (by simp [hxi])
    simp [posOf, hx, ih (fun hm => h (by simp [hm]))]

theorem posOf_isSome_of_mem (i : Nat) (l : List Nat) (h : i ∈ l) :
    ∃ j, posOf i l = some j := by
  induction l with
  | nil => simp at h
  | cons x xs ih =>
    by_cases hx : x = i
    · exact ⟨0, by simp [posOf, hx]⟩
    · rcases List.mem_cons.mp h with h1 | h1
      · exact absurd h1.symm hx
      · obtain ⟨j, hj⟩ := ih h1
        exact ⟨j + 1, by simp [posOf, hx, hj]⟩

theorem getElem?_of_posOf (i : Nat) (l : List Nat) (j : Nat)
    (h : posOf i l = some j) : l[j]? = some i := by
  induction l generalizing j with
  | nil => simp [posOf] at h
  | cons x xs ih =>
    by_cases hx : x = i
    · simp [posOf, hx] at h
      simp [← h, hx]
    · simp [posOf, hx] at h
      obtain ⟨j', hj', hjj⟩ := h
      subst hjj
      simpa using ih j' hj'

theorem posOf_inj (l : List Nat) (i i' : Nat) (j : Nat)
    (h : posOf i l = some j) (h' : posOf i' l = some j) : i = i' := by
  have h1 := getElem?_of_posOf i l j h
  have h2 := getElem?_of_posOf i' l j h'
  rw [h1] at h2
  exact (Option.some.injEq .. ▸ h2)

theorem assignAtFrom_getElem? (indices : List Nat) (f : Nat → Value → Value) :
    ∀ (i0 t : Nat) (col : List Value),
      (assignAtFrom indices f i0 col)[t]? =
        (col[t]?).map (fun v =>
          match posOf (i0 + t) indices with
          | some j => f j v
          | none => v)
  | _, _, [] => by simp [assignAtFrom]
  | i0, 0, v :: vs => by simp [assignAtFrom]
  | i0, t + 1, v :: vs => by
    have harith : i0 + 1 + t = i0 + (t + 1) := by omega
    simp only [assignAtFrom, List.getElem?_cons_succ]
    rw [assignAtFrom_getElem? indices f (i0 + 1) t vs, harith]

theorem assignAt_getElem? (col : List Value) (indices : List Nat)
    (f : Nat → Value → Value) (t : Nat) :
    (assignAt col indices f)[t]? =
      (col[t]?).map (fun v =>
        match posOf t indices with
        | some j => f j v
        | none => v) := by
  have := assignAtFrom_getElem? indices f 0 t col
  simpa [assignAt] using this

theorem assignAt_length (col : List Value) (indices : List Nat)
    (f : Nat → Value → Value) : (assignAt col indices f).length = col.length := by
  suffices h : ∀ i0 (col : List Value), (assignAtFrom indices f i0 col).length = col.length by
    exact h 0 col
  intro i0 col
  induction col generalizing i0 with
  | nil => rfl
  | cons v vs ih => simp [assignAtFrom, ih]

theorem rewriteStep_colNames (strategy : String) (fake : FakeCat → Nat → String)
    (indices : List Nat) (p : DF × Nat) (c : String) :
    colNames (rewriteStep strategy fake indices p c).1 = colNames p.1 :=
  colNames_setCol ..

theorem rewriteStep_WF (strategy : String) (fake : FakeCat → Nat → String)
    (indices : List Nat) (p : DF × Nat) (c : String) (n : Nat) (h : WF p.1 n) :
    WF (rewriteStep strategy fake indices p c).1 n := by
  by_cases hc : hasCol p.1 c = true
  · exact WF_setCol _ _ _ _ h (by rw [assignAt_length]; exact getCol_length _ _ _ h hc)
  · unfold rewriteStep
    rw [setCol_of_hasCol_false _ _ _ (Bool.eq_false_iff.mpr (fun hh => hc hh))]
    exact h

theorem rewriteStep_getCol_ne (strategy : String) (fake : FakeCat → Nat → String)
    (indices : List Nat) (p : DF × Nat) (c c' : String) (h : c' ≠ c) :
    getCol (rewriteStep strategy fake indices p c).1 c' = getCol p.1 c' :=
  getCol_setCol_ne _ _ _ _ h

theorem rewriteStep_cell_not_mem (strategy : String) (fake : FakeCat → Nat → String)
    (indices : List Nat) (p : DF × Nat) (c c' : String) (i : Nat)
    (h : i ∉ indices) :
    cellAt (rewriteStep strategy fake indices p c).1 c' i = cellAt p.1 c' i := by
  by_cases hcc : c' = c
  · subst hcc
    by_cases hc : hasCol p.1 c' = true
    · unfold cellAt rewriteStep
      rw [getCol_setCol_self _ _ _ hc, assignAt_getElem?,
        posOf_eq_none_of_not_mem _ _ h]
      cases (getCol p.1 c')[i]? <;> rfl
    · unfold rewriteStep
      rw [setCol_of_hasCol_false _ _ _ (Bool.eq_false_iff.mpr (fun hh => hc hh))]
  · unfold cellAt
    rw [rewriteStep_getCol_ne _ _ _ _ _ _ hcc]

theorem rewriteStep_cell_mem (strategy : String) (fake : FakeCat → Nat → String)
    (indices : List Nat) (p : DF × Nat) (c : String) (i j : Nat) (n : Nat)
    (hWF : WF p.1 n) (hc : hasCol p.1 c = true) (hi : i < n)
    (hj : posOf i indices = some j) :
    cellAt (rewriteStep strategy fake indices p c).1 c i =
      rewriteVal strategy (syntheticCategory c) fake (p.2 + j) (cellAt p.1 c i) := by
  unfold cellAt rewriteStep
  rw [getCol_setCol_self _ _ _ hc, assignAt_getElem?, hj]
  have hlen : (getCol p.1 c).length = n := getCol_length _ _ _ hWF hc
  have hlt : i < (getCol p.1 c).length := hlen ▸ hi
  rw [List.getElem?_eq_getElem hlt]
  rfl

theorem rewriteStep_hasCol (strategy : String) (fake : FakeCat → Nat → String)
    (indices : List Nat) (p : DF × Nat) (c c' : String) :
    hasCol (rewriteStep strategy fake indices p c).1 c' = hasCol p.1 c' := by
  rw [Bool.eq_iff_iff, hasCol_iff_mem_colNames, hasCol_iff_mem_colNames,
    rewriteStep_colNames]

theorem rewriteGroup_colNames (strategy : String) (fake : FakeCat → Nat → String)
    (indices : List Nat) (qis : List String) (p : DF × Nat) :
    colNames (rewriteGroup strategy fake indices qis p).1 = colNames p.1 := by
  induction qis generalizing p with
  | nil => rfl
  | cons c rest ih =>
    have hstep : rewriteGroup strategy fake indices (c :: rest) p =
        rewriteGroup strategy fake indices rest (rewriteStep strategy fake indices p c) := rfl
    rw [hstep, ih, rewriteStep_colNames]

theorem rewriteGroup_hasCol (strategy : String) (fake : FakeCat → Nat → String)
    (indices : List Nat) (qis : List String) (p : DF × Nat) (c : String) :
    hasCol (rewriteGroup strategy fake indices qis p).1 c = hasCol p.1 c := by
  rw [Bool.eq_iff_iff, hasCol_iff_mem_colNames, hasCol_iff_mem_colNames,
    rewriteGroup_colNames]

theorem rewriteGroup_WF (strategy : String) (fake : FakeCat → Nat → String)
    (indices : List Nat) (qis : List String) (p : DF × Nat) (n : Nat)
    (h : WF p.1 n) : WF (rewriteGroup strategy fake indices qis p).1 n := by
  induction qis generalizing p with
  | nil => exact h
  | cons c rest ih =>
    have hstep : rewriteGroup strategy fake indices (c :: rest) p =
        rewriteGroup strategy fake indices rest (rewriteStep strategy fake indices p c) := rfl
    rw [hstep]
    exact ih _ (rewriteStep_WF _ _ _ _ _ _ h)

theorem rewriteGroup_getCol_not_mem (strategy : String)
    (fake : FakeCat → Nat → String) (indices : List Nat) (qis : List String)
    (p : DF × Nat) (c : String) (h : c ∉ qis) :
    getCol (rewriteGroup strategy fake indices qis p).1 c = getCol p.1 c := by
  induction qis generalizing p with
  | nil => rfl
  | cons c0 rest ih =>
    have hstep : rewriteGroup strategy fake indices (c0 :: rest) p =
        rewriteGroup strategy fake indices rest (rewriteStep strategy fake indices p c0) := rfl
    have hne : c ≠ c0 := fun hc => h (hc ▸ List.mem_cons_self c0 rest)
    have hrest : c ∉ rest := fun hc => h (List.mem_cons_of_mem c0 hc)
    rw [hstep, ih _ hrest, rewriteStep_getCol_ne _ _ _ _ _ _ hne]

theorem rewriteGroup_cell_not_mem (strategy : String)
    (fake : FakeCat → Nat → String) (indices : List Nat) (qis : List String)
    (p : DF × Nat) (c : String) (i : Nat) (h : i ∉ indices) :
    cellAt (rewriteGroup strategy fake indices qis p).1 c i = cellAt p.1 c i := by
  induction qis generalizing p with
  | nil => rfl
  | cons c0 rest ih =>
    have hstep : rewriteGroup strategy fake indices (c0 :: rest) p =
        rewriteGroup strategy fake indices rest (rewriteStep strategy fake indices p c0) := rfl
    rw [hstep, ih _, rewriteStep_cell_not_mem _ _ _ _ _ _ _ h]

theorem rewriteGroup_cell_mem (strategy : String) (fake : FakeCat → Nat → String)
    (indices : List Nat) (qis : List String) (p : DF × Nat) (c : String)
    (i n : Nat) (hnd : qis.Nodup) (hcq : c ∈ qis) (hWF : WF p.1 n)
    (hc : hasCol p.1 c = true) (hi : i < n) (him : i ∈ indices) :
    ∃ draw, cellAt (rewriteGroup strategy fake indices qis p).1 c i =
      rewriteVal strategy (syntheticCategory c) fake draw (cellAt p.1 c i) := by
  induction qis generalizing p with
  | nil => simp at hcq
  | cons c0 rest ih =>
    have hstep : rewriteGroup strategy fake indices (c0 :: rest) p =
        rewriteGroup strategy fake indices rest (rewriteStep strategy fake indices p c0) := rfl
    rw [hstep]
    by_cases hcc : c = c0
    · subst hcc
      have hcrest : c ∉ rest := (List.nodup_cons.mp hnd).1
      obtain ⟨j, hj⟩ := posOf_isSome_of_mem i indices him
      refine ⟨p.2 + j, ?_⟩
      have hkeep : cellAt (rewriteGroup strategy fake indices rest
          (rewriteStep strategy fake indices p c)).1 c i =
          cellAt (rewriteStep strategy fake indices p c).1 c i := by
        unfold cellAt
        rw [rewriteGroup_getCol_not_mem _ _ _ _ _ _ hcrest]
      rw [hkeep]
      exact rewriteStep_cell_mem strategy fake indices p c i j n hWF hc hi hj
    · have hrest : c ∈ rest := by
        rcases List.mem_cons.mp hcq with h1 | h1
        · exact absurd h1 hcc
        · exact h1
      have hWF2 : WF (rewriteStep strategy fake indices p c0).1 n :=
        rewriteStep_WF _ _ _ _ _ _ hWF
      have hc2 : hasCol (rewriteStep strategy fake indices p c0).1 c = true := by
        rw [rewriteStep_hasCol]; exact hc
      have hold : cellAt (rewriteStep strategy fake indices p c0).1 c i =
          cellAt p.1 c i := by
        unfold cellAt
        rw [rewriteStep_getCol_ne _ _ _ _ _ _ hcc]
      obtain ⟨draw, hdraw⟩ := ih (rewriteStep strategy fake indices p c0)
        (List.nodup_cons.mp hnd).2 hrest hWF2 hc2
      exact ⟨draw, by rw [hdraw, hold]⟩

theorem kanonFold_cell_not_mem (strategy : String) (fake : FakeCat → Nat → String)
    (qis : List String) (gs : List (List Value × List Nat)) (p : DF × Nat)
    (c : String) (i : Nat) (h : ∀ g ∈ gs, i ∉ g.2) :
    cellAt (kanonFold strategy fake qis gs p).1 c i = cellAt p.1 c i := by
  induction gs generalizing p with
  | nil => rfl
  | cons g0 rest ih =>
    have hstep : kanonFold strategy fake qis (g0 :: rest) p =
        kanonFold strategy fake qis rest (rewriteGroup strategy fake g0.2 qis p) := rfl
    rw [hstep, ih _ (fun g hg => h g (List.mem_cons_of_mem _ hg)),
      rewriteGroup_cell_not_mem _ _ _ _ _ _ _ (h g0 (List.mem_cons_self _ _))]

theorem kanonFold_WF (strategy : String) (fake : FakeCat → Nat → String)
    (qis : List String) (gs : List (List Value × List Nat)) (p : DF × Nat)
    (n : Nat) (h : WF p.1 n) : WF (kanonFold strategy fake qis gs p).1 n := by
  induction gs generalizing p with
  | nil => exact h
  | cons g0 rest ih =>
    exact ih _ (rewriteGroup_WF _ _ _ _ _ _ h)

theorem kanonFold_cell_mem (strategy : String) (fake : FakeCat → Nat → String)
    (qis : List String) (gs : List (List Value × List Nat)) (p : DF × Nat)
    (c : String) (i n : Nat) (g : List Value × List Nat)
    (hgsnd : gs.Nodup) (hg : g ∈ gs) (him : i ∈ g.2)
    (honly : ∀ g' ∈ gs, g' ≠ g → i ∉ g'.2)
    (hnd : qis.Nodup) (hcq : c ∈ qis)
    (hWF : WF p.1 n) (hc : hasCol p.1 c = true) (hi : i < n) :
    ∃ draw, cellAt (kanonFold strategy fake qis gs p).1 c i =
      rewriteVal strategy (syntheticCategory c) fake draw (cellAt p.1 c i) := by
  induction gs generalizing p with
  | nil => simp at hg
  | cons g0 rest ih =>
    have hstep : kanonFold strategy fake qis (g0 :: rest) p =
        kanonFold strategy fake qis rest (rewriteGroup strategy fake g0.2 qis p) := rfl
    rw [hstep]
    by_cases hgg : g0 = g
    · subst hgg
      have hnotin : ∀ g' ∈ rest, i ∉ g'.2 := by
        intro g' hg'
        refine honly g' (List.mem_cons_of_mem _ hg') ?_
        intro hEq
        exact (List.nodup_cons.mp hgsnd).1 (hEq ▸ hg')
      obtain ⟨draw, hdraw⟩ :=
        rewriteGroup_cell_mem strategy fake g0.2 qis p c i n hnd hcq hWF hc hi him
      refine ⟨draw, ?_⟩
      rw [kanonFold_cell_not_mem _ _ _ _ _ _ _ hnotin, hdraw]
    · have hi0 : i ∉ g0.2 := honly g0 (List.mem_cons_self _ _) hgg
      have hgrest : g ∈ rest := by
        rcases List.mem_cons.mp hg with h1 | h1
        · exact absurd h1.symm hgg
        · exact h1
      have honly2 : ∀ g' ∈ rest, g' ≠ g → i ∉ g'.2 :=
        fun g' hg' => honly g' (List.mem_cons_of_mem _ hg')
      have hWF2 : WF (rewriteGroup strategy fake g0.2 qis p).1 n :=
        rewriteGroup_WF _ _ _ _ _ _ hWF
      have hc2 : hasCol (rewriteGroup strategy fake g0.2 qis p).1 c = true := by
        rw [rewriteGroup_hasCol]; exact hc
      have hold : cellAt (rewriteGroup strategy fake g0.2 qis p).1 c i =
          cellAt p.1 c i := rewriteGroup_cell_not_mem _ _ _ _ _ _ _ hi0
      obtain ⟨draw, hdraw⟩ := ih (rewriteGroup strategy fake g0.2 qis p)
        (List.nodup_cons.mp hgsnd).2 hgrest honly2 hWF2 hc2
      exact ⟨draw, by rw [hdraw, hold]⟩

theorem rewriteVal_suppression (cat : FakeCat) (fake : FakeCat → Nat → String)
    (draw : Nat) (v : Value) :
    rewriteVal "suppression" cat fake draw v = .str (suppressVal (strRepr v)) := rfl

theorem rewriteVal_generalization (cat : FakeCat) (fake : FakeCat → Nat → String)
    (draw : Nat) (v : Value) :
    rewriteVal "generalization" cat fake draw v = .str (generalizeVal (strRepr v)) := rfl

theorem rewriteVal_synthetic (cat : FakeCat) (fake : FakeCat → Nat → String)
    (draw : Nat) (v : Value) :
    rewriteVal "synthetic" cat fake draw v = .str (fake cat draw) := rfl

/-- C1: after `apply_k_anonymity(cols, k, strategy)`, every equivalence class
computed over `cols` on the pre-transform frame either had size `≥ k` — then
every member row's values in `cols` are unchanged — or had size `< k` — then
every member row's value in every column of `cols` is rewritten per the
strategy, applied to the pre-transform value.  The classes are those of the
single up-front grouping. -/
theorem apply_k_anonymity_postcondition (d : DF) (qis : List String) (k : Nat)
    (strategy : String) (fake : FakeCat → Nat → String)
    (hstrat : validStrategy strategy = true)
    (hWF : WF d (nrows d)) (hqis : ∀ c ∈ qis, hasCol d c = true)
    (hnd : qis.Nodup) (hne : qis ≠ []) :
    ∃ d', apply_k_anonymity d qis k strategy fake = Except.ok d' ∧
      ∀ g ∈ groupBy d qis, ∀ i ∈ g.2,
        (k ≤ g.2.length → ∀ c ∈ qis, cellAt d' c i = cellAt d c i) ∧
        (g.2.length < k → ∀ c ∈ qis, ∃ draw,
          cellAt d' c i =
            rewriteVal strategy (syntheticCategory c) fake draw (cellAt d c i)) := by
  refine ⟨(kanonFold strategy fake qis
      ((groupBy d qis).filter (fun g => decide (g.2.length < k))) (d, 0)).1,
    ?_, ?_⟩
  · simp [apply_k_anonymity, hstrat]
  · intro g hg i hi
    have hgidx : g.2 = groupIdx d qis g.1 := ((mem_groupBy d qis g).mp hg).2
    have hiN : i < nrows d := ((mem_groupIdx d qis g.1 i).mp (hgidx ▸ hi)).1
    constructor
    · intro hk c hcq
      have hnot : ∀ g' ∈ (groupBy d qis).filter (fun g => decide (g.2.length < k)),
          i ∉ g'.2 := by
        intro g' hg' hig'
        have hg'G : g' ∈ groupBy d qis := (List.mem_filter.mp hg').1
        have hEq : g = g' := groupBy_eq_of_mem_both d qis g g' hg hg'G i hi hig'
        have hlt : g'.2.length < k := by
          simpa using (List.mem_filter.mp hg').2
        rw [← hEq] at hlt
        omega
      exact kanonFold_cell_not_mem _ _ _ _ _ _ _ hnot
    · intro hk c hcq
      have hgsmall : g ∈ (groupBy d qis).filter (fun g => decide (g.2.length < k)) :=
        List.mem_filter.mpr ⟨hg, by simpa using hk⟩
      have hsnodup : ((groupBy d qis).filter (fun g => decide (g.2.length < k))).Nodup :=
        (groupBy_nodup d qis).filter _
      have honly : ∀ g' ∈ (groupBy d qis).filter (fun g => decide (g.2.length < k)),
          g' ≠ g → i ∉ g'.2 := by
        intro g' hg' hne' hig'
        exact hne' (groupBy_eq_of_mem_both d qis g' g (List.mem_filter.mp hg').1 hg i hig' hi)
      exact kanonFold_cell_mem strategy fake qis _ (d, 0) c i (nrows d) g
        hsnodup hgsmall hi honly hnd hcq hWF (hqis c hcq) hiN

/-- C2: an unrecognized strategy makes `apply_k_anonymity` raise the
invalid-strategy `ValueError` before any mutation: the call yields the error
and the anonymizer state is left exactly as it was. -/
theorem apply_k_anonymity_invalid_strategy (d : DF) (qis : List String)
    (k : Nat) (strategy : String) (fake : FakeCat → Nat → String)
    (h1 : strategy ≠ "suppression") (h2 : strategy ≠ "generalization")
    (h3 : strategy ≠ "synthetic") :
    apply_k_anonymity d qis k strategy fake =
      Except.error "Invalid strategy. Choose from: suppression, generalization, synthetic" ∧
    ∀ a : Anonymizer, runOp a (Op.kanon qis k strategy fake) = a := by
  have hv : validStrategy strategy = false := by
    simp [validStrategy, Bool.or_eq_false_iff, beq_eq_false_iff_ne]
    exact ⟨⟨h1, h2⟩, h3⟩
  constructor
  · simp [apply_k_anonymity, hv]
  · intro a
    simp [runOp, apply_k_anonymity, hv]

/-- C5: the equivalence classes produced by the grouper partition the full
row-label set: membership in a class is exactly sharing its key (missing
values forming their own keys), labels within a class are strictly ascending,
and every row label below the row count lies in exactly one class. -/
theorem groupBy_partition (d : DF) (qis : List String) :
    (∀ g ∈ groupBy d qis,
      (∀ i, i ∈ g.2 ↔ i < nrows d ∧ keyOf d qis i = g.1) ∧
      List.Pairwise (· < ·) g.2) ∧
    (∀ i, i < nrows d → ∃! g, g ∈ groupBy d qis ∧ i ∈ g.2) := by
  constructor
  · intro g hg
    have hgidx : g.2 = groupIdx d qis g.1 := ((mem_groupBy d qis g).mp hg).2
    constructor
    · intro i
      rw [hgidx]
      exact mem_groupIdx d qis g.1 i
    · rw [hgidx]
      exact groupIdx_pairwise_lt d qis g.1
  · intro i hi
    refine ⟨(keyOf d qis i, groupIdx d qis (keyOf d qis i)), ⟨?_, ?_⟩, ?_⟩
    · exact (mem_groupBy _ _ _).mpr ⟨keyOf_mem_groupKeys d qis i hi, rfl⟩
    · exact (mem_groupIdx _ _ _ _).mpr ⟨hi, rfl⟩
    · rintro g ⟨hg, hig⟩
      have hgidx : g.2 = groupIdx d qis g.1 := ((mem_groupBy d qis g).mp hg).2
      have hkey : keyOf d qis i = g.1 :=
        ((mem_groupIdx d qis g.1 i).mp (hgidx ▸ hig)).2
      refine Prod.ext hkey.symm ?_
      rw [hgidx, hkey]

/-- C4: a cell rewritten under `suppression` becomes a string of `*` only,
of the same length as the string representation of the original value. -/
theorem suppression_invariant (cat : FakeCat) (fake : FakeCat → Nat → String)
    (draw : Nat) (v : Value) :
    rewriteVal "suppression" cat fake draw v = .str (suppressVal (strRepr v)) ∧
    (suppressVal (strRepr v)).length = (strRepr v).length ∧
    ∀ ch ∈ (suppressVal (strRepr v)).toList, ch = '*' := by
  refine ⟨rewriteVal_suppression cat fake draw v, ?_, ?_⟩
  · show (List.replicate (strRepr v).toList.length '*').length = _
    rw [List.length_replicate]
    rfl
  · intro ch hch
    have : ch ∈ List.replicate (strRepr v).toList.length '*' := hch
    exact List.eq_of_mem_replicate this

/-- C3: a cell rewritten under `generalization` keeps the first two characters
of the string representation and has the same length when that representation
has at least two characters; shorter representations are left equal to the
original string (the `*` suffix count is clamped at zero). -/
theorem generalization_invariant (cat : FakeCat) (fake : FakeCat → Nat → String)
    (draw : Nat) (v : Value) :
    rewriteVal "generalization" cat fake draw v = .str (generalizeVal (strRepr v)) ∧
    (2 ≤ (strRepr v).length →
      (generalizeVal (strRepr v)).toList.take 2 = (strRepr v).toList.take 2 ∧
      (generalizeVal (strRepr v)).length = (strRepr v).length) ∧
    ((strRepr v).length < 2 → generalizeVal (strRepr v) = strRepr v) := by
  have hts : (strRepr v).toList.length = (strRepr v).length := rfl
  refine ⟨rewriteVal_generalization cat fake draw v, ?_, ?_⟩
  · intro h2
    constructor
    · show ((strRepr v).toList.take 2 ++
          List.replicate ((strRepr v).toList.length - 2) '*').take 2 = _
      rw [List.take_append_of_le_length (by simp [List.length_take]; omega),
        List.take_take]
      norm_num
    · show ((strRepr v).toList.take 2 ++
          List.replicate ((strRepr v).toList.length - 2) '*').length =
          (strRepr v).toList.length
      simp [List.length_take, List.length_replicate]
      omega
  · intro h2
    unfold generalizeVal
    rw [List.take_of_length_le (by omega),
      show (strRepr v).toList.length - 2 = 0 by omega]
    cases hs : strRepr v
    simp

/-- C10: the synthetic strategy dispatches on the lowercased column name by
substring, with fixed precedence `"zip"`, then `"gender"`, then
`"occupation"`/`"job"`, else the generic fake word — a multi-match name such
as `"zip_gender"` goes to the first pattern — and each rewritten row consumes
its own draw from the fake-data tape. -/
theorem synthetic_heuristic :
    (∀ c : String, containsSub (toLowerStr c) "zip" = true →
      syntheticCategory c = FakeCat.zipcode) ∧
    (∀ c : String, containsSub (toLowerStr c) "zip" = false →
      containsSub (toLowerStr c) "gender" = true →
      syntheticCategory c = FakeCat.gender) ∧
    (∀ c : String, containsSub (toLowerStr c) "zip" = false →
      containsSub (toLowerStr c) "gender" = false →
      (containsSub (toLowerStr c) "occupation" = true ∨
        containsSub (toLowerStr c) "job" = true) →
      syntheticCategory c = FakeCat.job) ∧
    (∀ c : String, containsSub (toLowerStr c) "zip" = false →
      containsSub (toLowerStr c) "gender" = false →
      containsSub (toLowerStr c) "occupation" = false →
      containsSub (toLowerStr c) "job" = false →
      syntheticCategory c = FakeCat.word) ∧
    syntheticCategory "zip_gender" = FakeCat.zipcode ∧
    (∀ (fake : FakeCat → Nat → String) (cat : FakeCat) (ctr : Nat)
        (col : List Value) (indices : List Nat) (i : Nat),
      i ∈ indices → i < col.length →
      ∃ j, posOf i indices = some j ∧
        (assignAt col indices
            (fun j v => rewriteVal "synthetic" cat fake (ctr + j) v))[i]? =
          some (Value.str (fake cat (ctr + j))) ∧
        ∀ i2 ∈ indices, i2 ≠ i → posOf i2 indices ≠ some j) := by
  refine ⟨?_, ?_, ?_, ?_, ?_, ?_⟩
  · intro c h
    simp [syntheticCategory, h]
  · intro c h1 h2
    simp [syntheticCategory, h1, h2]
  · intro c h1 h2 h3
    rcases h3 with h3 | h3 <;> simp [syntheticCategory, h1, h2, h3]
  · intro c h1 h2 h3 h4
    simp [syntheticCategory, h1, h2, h3, h4]
  · rfl
  · intro fake cat ctr col indices i him hlt
    obtain ⟨j, hj⟩ := posOf_isSome_of_mem i indices him
    refine ⟨j, hj, ?_, ?_⟩
    · rw [assignAt_getElem?, List.getElem?_eq_getElem hlt, hj]
      rfl
    · intro i2 hi2 hne hcontra
      exact hne (posOf_inj indices i2 i j hcontra hj)

theorem runOp_original (a : Anonymizer) (op : Op) :
    (runOp a op).original_df = a.original_df := by
  cases op with
  | dp cols eps lap => rfl
  | kanon qis k strategy fake =>
    simp only [runOp]
    cases apply_k_anonymity a.df qis k strategy fake <;> rfl

/-- C9: no sequence of transform invocations ever modifies the snapshot taken
at load time: the original frame stays cell-for-cell the loaded dataset. -/
theorem original_df_preserved (d : DF) (ops : List Op) :
    (runOps (load_data d) ops).original_df = d := by
  suffices h : ∀ a : Anonymizer, (runOps a ops).original_df = a.original_df by
    rw [h]; rfl
  intro a
  induction ops generalizing a with
  | nil => rfl
  | cons op rest ih =>
    have hstep : runOps a (op :: rest) = runOps (runOp a op) rest := rfl
    rw [hstep, ih, runOp_original]

theorem noisyFrom_getElem? (lap1 : Nat → ℚ) :
    ∀ (i0 t : Nat) (col : List ℚ),
      (noisyFrom lap1 i0 col)[t]? = (col[t]?).map (fun v => round2 (v + lap1 (i0 + t)))
  | _, _, [] => by simp [noisyFrom]
  | i0, 0, v :: vs => by simp [noisyFrom]
  | i0, t + 1, v :: vs => by
    have harith : i0 + 1 + t = i0 + (t + 1) := by omega
    simp only [noisyFrom, List.getElem?_cons_succ]
    rw [noisyFrom_getElem? lap1 (i0 + 1) t vs, harith]

theorem dpCol_getElem? (col : List ℚ) (lap1 : Nat → ℚ) (t : Nat) :
    (dpCol col lap1)[t]? = (col[t]?).map (fun v => round2 (v + lap1 t)) := by
  have := noisyFrom_getElem? lap1 0 t col
  simpa [dpCol] using this

theorem dp_getCol_not_mem (d : DF) (cols : List String) (c : String) (eps : ℚ)
    (lap : Nat → ℚ → Nat → ℚ) (t : Nat) (h : c ∉ cols) :
    getCol (apply_differential_privacy d cols eps lap t).1 c = getCol d c := by
  induction cols generalizing d t with
  | nil => rfl
  | cons c0 rest ih =>
    have hne : c ≠ c0 := fun hc => h (hc ▸ List.mem_cons_self _ _)
    have hrest : c ∉ rest := fun hc => h (List.mem_cons_of_mem _ hc)
    by_cases h0 : hasCol d c0 = true
    · simp only [apply_differential_privacy, h0, if_true]
      rw [ih _ _ hrest, getCol_setCol_ne _ _ _ _ hne]
    · simp only [apply_differential_privacy,
        Bool.not_eq_true .. ▸ Bool.eq_false_iff.mpr (fun hh => h0 hh), if_false]
      exact ih _ _ hrest

theorem dp_hasCol (d : DF) (cols : List String) (c : String) (eps : ℚ)
    (lap : Nat → ℚ → Nat → ℚ) (t : Nat) :
    hasCol (apply_differential_privacy d cols eps lap t).1 c = hasCol d c := by
  induction cols generalizing d t with
  | nil => rfl
  | cons c0 rest ih =>
    by_cases h0 : hasCol d c0 = true
    · simp only [apply_differential_privacy, h0, if_true]
      rw [ih, hasCol_setCol]
    · simp only [apply_differential_privacy,
        Bool.not_eq_true .. ▸ Bool.eq_false_iff.mpr (fun hh => h0 hh), if_false]
      exact ih _ _

/-- C6: for a requested numeric column present in the store, the DP transform
computes `sensitivity = max - min` over the column's current values, the noise
scale `sensitivity / epsilon`, passes that scale to the Laplace sampler, draws
one sample per row (row `i` gets the `i`-th entry of its batch), adds it to
the value, rounds to two decimals, and overwrites the column in place with the
results. -/
theorem apply_dp_numeric_column (d : DF) (cols : List String) (c : String)
    (eps : ℚ) (lap : Nat → ℚ → Nat → ℚ) (t : Nat)
    (heps : 0 < eps) (hc : c ∈ cols) (hnd : cols.Nodup)
    (hcol : hasCol d c = true)
    (hnum : ∀ v ∈ getCol d c, ∃ q, v = Value.num q) :
    ∃ s, getCol (apply_differential_privacy d cols eps lap t).1 c =
        (dpCol (numCol d c)
          (lap s ((listMax (numCol d c) - listMin (numCol d c)) / eps))).map Value.num ∧
      ∀ i q, (numCol d c)[i]? = some q →
        (dpCol (numCol d c)
            (lap s ((listMax (numCol d c) - listMin (numCol d c)) / eps)))[i]? =
          some (round2 (q +
            lap s ((listMax (numCol d c) - listMin (numCol d c)) / eps) i)) := by
  induction cols generalizing d t with
  | nil => simp at hc
  | cons c0 rest ih =>
    by_cases hcc : c = c0
    · subst hcc
      have hcrest : c ∉ rest := (List.nodup_cons.mp hnd).1
      refine ⟨t, ?_, ?_⟩
      · simp only [apply_differential_privacy, hcol, if_true]
        rw [dp_getCol_not_mem _ _ _ _ _ _ hcrest, getCol_setCol_self _ _ _ hcol]
      · intro i q hq
        rw [dpCol_getElem?, hq]
        rfl
    · have hrest : c ∈ rest := by
        rcases List.mem_cons.mp hc with h1 | h1
        · exact absurd h1 hcc
        · exact h1
      have hndrest : rest.Nodup := (List.nodup_cons.mp hnd).2
      by_cases h0 : hasCol d c0 = true
      · have hget : getCol (setCol d c0
            ((dpCol (numCol d c0)
              (lap t ((listMax (numCol d c0) - listMin (numCol d c0)) / eps))).map
                Value.num)) c = getCol d c :=
          getCol_setCol_ne _ _ _ _ hcc
        have hcol2 : hasCol (setCol d c0
            ((dpCol (numCol d c0)
              (lap t ((listMax (numCol d c0) - listMin (numCol d c0)) / eps))).map
                Value.num)) c = true := by
          rw [hasCol_setCol]; exact hcol
        have hnum2 : ∀ v ∈ getCol (setCol d c0
            ((dpCol (numCol d c0)
              (lap t ((listMax (numCol d c0) - listMin (numCol d c0)) / eps))).map
                Value.num)) c, ∃ q, v = Value.num q := by
          rw [hget]; exact hnum
        have hnc : numCol (setCol d c0
            ((dpCol (numCol d c0)
              (lap t ((listMax (numCol d c0) - listMin (numCol d c0)) / eps))).map
                Value.num)) c = numCol d c :=
          congrArg (List.map Value.toNum) hget
        obtain ⟨s, h1, h2⟩ := ih _ (t + 1) hrest hndrest hcol2 hnum2
        rw [hnc] at h1 h2
        refine ⟨s, ?_, h2⟩
        simp only [apply_differential_privacy, h0, if_true]
        exact h1
      · obtain ⟨s, h1, h2⟩ := ih d t hrest hndrest hcol hnum
        refine ⟨s, ?_, h2⟩
        simp only [apply_differential_privacy,
          Bool.not_eq_true .. ▸ Bool.eq_false_iff.mpr (fun hh => h0 hh), if_false]
        exact h1

/-- C8: a requested column absent from the store does not fail the DP
transform: it is recorded as a warning and skipped, the frame is exactly what
processing the remaining columns alone produces, so all remaining present
columns are still transformed. -/
theorem apply_dp_missing_column (d : DF) (c : String) (rest : List String)
    (eps : ℚ) (lap : Nat → ℚ → Nat → ℚ) (t : Nat) (h : hasCol d c = false) :
    (apply_differential_privacy d (c :: rest) eps lap t).1 =
      (apply_differential_privacy d rest eps lap t).1 ∧
    (apply_differential_privacy d (c :: rest) eps lap t).2 =
      c :: (apply_differential_privacy d rest eps lap t).2 := by
  have h2 : ¬hasCol d c = true := by simp [h]
  constructor <;>
    · simp only [apply_differential_privacy]
      rw [if_neg h2]

/-- C7: the anonymization report has exactly one entry per column present in
both the original and the current frame, in original column order (columns
gone from the current frame are skipped), and each entry reports exactly the
original distinct count, the current distinct count, and their difference as
the privacy gain. -/
theorem report_entries (orig cur : DF) :
    (get_anonymization_report orig cur).map (fun e => e.1) =
      (colNames orig).filter (fun c => hasCol cur c) ∧
    ∀ e ∈ get_anonymization_report orig cur,
      e.2.1 = nunique (getCol orig e.1) ∧
      e.2.2.1 = nunique (getCol cur e.1) ∧
      e.2.2.2 = (nunique (getCol orig e.1) : Int) - (nunique (getCol cur e.1) : Int) := by
  constructor
  · unfold get_anonymization_report
    generalize colNames orig = l
    induction l with
    | nil => rfl
    | cons c0 rest ih =>
      by_cases h0 : hasCol cur c0 = true
      · simp only [List.filterMap_cons, h0, if_true, List.filter_cons, List.map_cons, ih]
      · simp only [List.filterMap_cons, List.filter_cons, if_neg h0, ih]
  · intro e he
    obtain ⟨c, hcl, hfc⟩ := List.mem_filterMap.mp he
    by_cases h0 : hasCol cur c = true
    · rw [if_pos h0] at hfc
      obtain rfl := Option.some.inj hfc
      exact ⟨rfl, rfl, rfl⟩
    · rw [if_neg (fun hh => h0 hh)] at hfc
      cases hfc

/-- Witness: on a three-row frame with city classes of sizes 2 and 1 and
`k = 2`, suppression leaves the large class untouched and stars out the
singleton. -/
theorem apply_k_anonymity_postcondition_witness :
    ∃ d', apply_k_anonymity [("city", [Value.str "A", Value.str "A", Value.str "B"])]
        ["city"] 2 "suppression" (fun _ _ => "w") = Except.ok d' ∧
      cellAt d' "city" 0 = Value.str "A" ∧ cellAt d' "city" 2 = Value.str "*" := by
  obtain ⟨d', hok, hpost⟩ := apply_k_anonymity_postcondition
    [("city", [Value.str "A", Value.str "A", Value.str "B"])] ["city"] 2
    "suppression" (fun _ _ => "w") (by decide) (by unfold WF; decide) (by decide)
    (by decide) (by decide)
  refine ⟨d', hok, ?_, ?_⟩
  · have hg : (([Value.str "A"], [0, 1]) : List Value × List Nat) ∈
        groupBy [("city", [Value.str "A", Value.str "A", Value.str "B"])] ["city"] := by
      decide
    have h0 := (hpost _ hg 0 (by decide)).1 (by decide) "city" (by decide)
    rw [h0]
    decide
  · have hg : (([Value.str "B"], [2]) : List Value × List Nat) ∈
        groupBy [("city", [Value.str "A", Value.str "A", Value.str "B"])] ["city"] := by
      decide
    obtain ⟨draw, hd⟩ := (hpost _ hg 2 (by decide)).2 (by decide) "city" (by decide)
    rw [hd, rewriteVal_suppression]
    decide

/-- Witness: the strategy string `"bogus"` is rejected with the exact error
and the state is untouched. -/
theorem apply_k_anonymity_invalid_strategy_witness :
    apply_k_anonymity [("city", [Value.str "A"])] ["city"] 2 "bogus" (fun _ _ => "w") =
      Except.error "Invalid strategy. Choose from: suppression, generalization, synthetic" ∧
    ∀ a : Anonymizer, runOp a (Op.kanon ["city"] 2 "bogus" (fun _ _ => "w")) = a :=
  apply_k_anonymity_invalid_strategy _ _ _ _ _ (by decide) (by decide) (by decide)

/-- Witness: generalizing `"hello"` yields `"he***"`. -/
theorem generalization_invariant_witness :
    rewriteVal "generalization" FakeCat.word (fun _ _ => "w") 0 (Value.str "hello") =
      Value.str "he***" := by
  have h := generalization_invariant FakeCat.word (fun _ _ => "w") 0 (Value.str "hello")
  rw [h.1]
  decide

/-- Witness: suppressing `"abc"` yields `"***"`. -/
theorem suppression_invariant_witness :
    rewriteVal "suppression" FakeCat.word (fun _ _ => "w") 0 (Value.str "abc") =
      Value.str "***" := by
  have h := suppression_invariant FakeCat.word (fun _ _ => "w") 0 (Value.str "abc")
  rw [h.1]
  decide

/-- Witness: on a frame with a missing value, row 0 lies in exactly one
equivalence class. -/
theorem groupBy_partition_witness :
    ∃! g, g ∈ groupBy [("city", [Value.str "A", Value.str "A", Value.null])] ["city"] ∧
      (0 : Nat) ∈ g.2 :=
  (groupBy_partition [("city", [Value.str "A", Value.str "A", Value.null])] ["city"]).2
    0 (by decide)

/-- Witness: DP with a zero noise tape on the column `[1, 3]` with
`epsilon = 1` leaves the rounded values `[1, 3]`. -/
theorem apply_dp_numeric_column_witness :
    getCol (apply_differential_privacy [("age", [Value.num 1, Value.num 3])]
        ["age"] 1 (fun _ _ _ => 0) 0).1 "age" = [Value.num 1, Value.num 3] := by
  obtain ⟨s, h1, h2⟩ := apply_dp_numeric_column
    [("age", [Value.num 1, Value.num 3])] ["age"] "age" 1 (fun _ _ _ => 0) 0
    (by norm_num) (by decide) (by decide) (by decide)
    (by
      intro v hv
      have hg : getCol [("age", [Value.num 1, Value.num 3])] "age" =
          [Value.num 1, Value.num 3] := rfl
      rw [hg] at hv
      rcases List.mem_cons.mp hv with rfl | hv2
      · exact ⟨1, rfl⟩
      · rcases List.mem_cons.mp hv2 with rfl | hv3
        · exact ⟨3, rfl⟩
        · simp at hv3)
  rw [h1]
  with_unfolding_all rfl

/-- Witness: a report on a frame whose only column survives lists exactly that
column. -/
theorem report_entries_witness :
    (get_anonymization_report [("zip", [Value.str "a", Value.str "b"])]
        [("zip", [Value.str "a", Value.str "a"])]).map (fun e => e.1) = ["zip"] := by
  have h := (report_entries [("zip", [Value.str "a", Value.str "b"])]
      [("zip", [Value.str "a", Value.str "a"])]).1
  rw [h]
  decide

/-- Witness: requesting the absent column `"zip"` skips it with a warning and
leaves the frame unchanged. -/
theorem apply_dp_missing_column_witness :
    (apply_differential_privacy [("age", [Value.num 1])] ["zip"] 1
      (fun _ _ _ => 0) 0).1 = [("age", [Value.num 1])] ∧
    (apply_differential_privacy [("age", [Value.num 1])] ["zip"] 1
      (fun _ _ _ => 0) 0).2 = ["zip"] := by
  have h := apply_dp_missing_column [("age", [Value.num 1])] "zip" [] 1
    (fun _ _ _ => 0) 0 (by decide)
  refine ⟨?_, ?_⟩
  · rw [h.1]
    rfl
  · rw [h.2]
    rfl

/-- Witness: the synthetic heuristic at concrete column names, including the
multi-match name `"Zip_Gender"` going to the first pattern. -/
theorem synthetic_heuristic_witness :
    syntheticCategory "Zip_Gender" = FakeCat.zipcode ∧
    syntheticCategory "Gender" = FakeCat.gender ∧
    syntheticCategory "job_title" = FakeCat.job ∧
    syntheticCategory "city" = FakeCat.word :=
  ⟨synthetic_heuristic.1 "Zip_Gender" (by decide),
   synthetic_heuristic.2.1 "Gender" (by decide) (by decide),
   synthetic_heuristic.2.2.1 "job_title" (by decide) (by decide) (Or.inr (by decide)),
   synthetic_heuristic.2.2.2.1 "city" (by decide) (by decide) (by decide) (by decide)⟩
